import Mathlib

/-!
Verification of the commit-classification and retrieval pipeline of the
releaser tool (lib/git.js and friends).  The JavaScript source is shallowly
embedded: strings are Lean `String`s manipulated as `List Char`, JS objects
become structures, absent object fields become `Option`, promise-based
control flow becomes explicit traces (call counts, delay counts, event
lists), and thrown errors become `Except`.
-/

namespace Releaser

/-! ## Generic string helpers (embedding JS string primitives) -/

/-- Index of the first occurrence of `pat` (as a contiguous sublist) in `s`,
scanning left to right; models the search position used by
JS String.prototype.replace with a string pattern. -/
def firstIdxAux (pat : List Char) : List Char → Option Nat
  | [] => if pat.isEmpty then some 0 else none
  | c :: cs =>
    if pat.isPrefixOf (c :: cs) then some 0
    else (firstIdxAux pat cs).map (· + 1)

/-- Does `pat` occur as a contiguous substring of `s`?  Models
JS String.prototype.includes. -/
def containsStr (pat s : String) : Bool :=
  (firstIdxAux pat.toList s.toList).isSome

/-- Remove the first occurrence of `pat` from `s`, scanning left to right and
leaving `s` unchanged when `pat` does not occur.  This is the direct
recursive embedding of the JS expression `s.replace(pat, '')` with a string
pattern (JS replaces only the first occurrence). -/
def removeFirstAux (pat : List Char) : List Char → List Char
  | [] => []
  | c :: cs =>
    if pat.isPrefixOf (c :: cs) then (c :: cs).drop pat.length
    else c :: removeFirstAux pat cs

/-- String-level wrapper for `removeFirstAux`; embeds `s.replace(pat, '')`. -/
def removeFirst (pat s : String) : String :=
  String.mk (removeFirstAux pat.toList s.toList)

/-- Split `s` on every non-overlapping occurrence of the separator `sep`
(scanning left to right), with a fuel argument bounding the recursion depth;
fuel at least the length of the list is always sufficient.  Embeds
JS String.prototype.split with a non-empty string separator. -/
def splitOnAux (sep : List Char) : Nat → List Char → List (List Char)
  | _, [] => [[]]
  | 0, l => [l]
  | fuel + 1, c :: cs =>
    if sep.isPrefixOf (c :: cs) && !sep.isEmpty then
      [] :: splitOnAux sep fuel ((c :: cs).drop sep.length)
    else
      match splitOnAux sep fuel cs with
      | [] => [[c]]
      | h :: t => (c :: h) :: t

/-- String-level wrapper for `splitOnAux`; embeds `s.split(sep)` for a
non-empty string separator. -/
def splitStr (sep s : String) : List String :=
  (splitOnAux sep.toList s.toList.length s.toList).map String.mk

/-- Split a string into lines, treating both a bare newline and a carriage
return followed by a newline as separators; a lone carriage return does not
separate.  Embeds `input.split(/\r?\n/)` from `parseOutput`. -/
def splitLinesAux : List Char → List (List Char)
  | [] => [[]]
  | '\r' :: '\n' :: rest => [] :: splitLinesAux rest
  | '\n' :: rest => [] :: splitLinesAux rest
  | c :: rest =>
    match splitLinesAux rest with
    | [] => [[c]]
    | h :: t => (c :: h) :: t

/-- String-level wrapper for `splitLinesAux`. -/
def splitLines (s : String) : List String :=
  (splitLinesAux s.toList).map String.mk

/-! ## Data model -/

/-- A parsed git tag: name and ISO date string (data model of lib/git.js). -/
structure Tag where
  name : String
  date : String
deriving Repr, DecidableEq

/-- A parsed git commit as produced by `commitParser` in lib/git.js.  The
`issues` field is `Option` because the JS object produced by the current
`commitParser` has no `issues` property at all (reading it yields
`undefined`, modelled as `none`); `retrieve` later builds copies where the
field is set. -/
structure Commit where
  hash : String
  date : String
  name : String
  issues : Option (List String) := none
deriving Repr, DecidableEq

/-- A GitHub issue as stored in the number-keyed mapping built by
`parseIssues`: title and list of label names. -/
structure Issue where
  title : String
  labels : List String
deriving Repr, DecidableEq

/-- The issue mapping `number -> issue` is embedded as an association list
with string keys; `lookupIssue` embeds the JS property read
`issues[commitIssue]`, yielding `none` for an absent key (JS `undefined`). -/
def lookupIssue (m : List (String × Issue)) (k : String) : Option Issue :=
  (m.find? (fun e => e.1 == k)).map (fun e => e.2)

/-- A label rule's `match` field is either a string literal or a RegExp
object.  A RegExp is embedded abstractly by the two operations the code
applies to it: `test` (used by `filterLocalCommits`) and `rfirst`, the
behavior of `name.replace(regex, '')` which removes the first regex match
(used by `removeMatch`). -/
inductive LabelMatch where
  | lit (s : String)
  | re (test : String → Bool) (rfirst : String → String)

/-- A local label rule from configuration: match field plus group name. -/
structure LocalRule where
  mtch : LabelMatch
  name : String

/-- An external label rule from configuration: match text plus group name
(the external pass compares the match field against label strings with
`includes`, which is only ever true for string match fields). -/
structure ExternalRule where
  mtch : String
  name : String

/-- One entry of a classified group: a shallow copy of a commit, optionally
annotated with the issue number that triggered the match (`issueNumber` is
absent, i.e. `none`, for entries produced by the local pass). -/
structure GEntry where
  commit : Commit
  issueNumber : Option String
deriving Repr, DecidableEq

/-- A named group of classified commits, as built by `resultify` in
`retrieve`. -/
structure Group where
  name : String
  commits : List GEntry
deriving Repr, DecidableEq

/-! ## Tag parsing (`tagParser` in lib/git.js) -/

/-- Embedding of the line match `input.match(/([^ ]+) (.*)/)`: the date
group is the first maximal run of non-space characters, it must be followed
by a space, and the decoration group is the rest of the line up to a line
terminator (the JS dot does not match carriage return or newline).  Returns
`none` when the regex does not match. -/
def lineSplit (input : String) : Option (String × String) :=
  let rest := input.toList.dropWhile (fun c => c == ' ')
  let date := rest.takeWhile (fun c => c != ' ')
  if date.isEmpty then none
  else
    match rest.drop date.length with
    | [] => none
    | _ :: tail =>
      some (String.mk date,
            String.mk (tail.takeWhile (fun c => c != '\n' && c != '\r')))

/-- Embedding of `tagParser` from lib/git.js: parse the line into date and
decoration, return `[]` on parse failure or empty decoration, otherwise
split the decoration on commas, strip the first occurrence of the text
`tag: ` from each entry, keep the entries matching the configured tag
pattern (embedded as the predicate `tagTest`, the truthiness of
`x.match(tagRegex)`), and pair each with the line's date. -/
def tagParser (tagTest : String → Bool) (input : String) : List Tag :=
  match lineSplit input with
  | none => []
  | some (date, tags) =>
    if tags = "" then []
    else
      (((splitStr ", " tags).map (fun x => removeFirst "tag: " x)).filter
        tagTest).map (fun x => { name := x, date := date })

/-! ## Commit parsing (`commitParser` in lib/git.js) -/

/-- Embedding of `commitParser`: the anchored match
`input.match(/^(.{9}) ([^ ]+) (.*)/)`.  The hash group is the first nine
characters (which must not contain a line terminator, since the JS dot
excludes them), followed by a space, a non-empty maximal run of non-space
characters (the date), a space, and the message (up to a line terminator).
A line that does not match is dropped (`none`). -/
def commitParser (input : String) : Option Commit :=
  let cs := input.toList
  let hash := cs.take 9
  if hash.length < 9 || hash.any (fun c => c == '\n' || c == '\r') then none
  else
    match cs.drop 9 with
    | ' ' :: rest =>
      let date := rest.takeWhile (fun c => c != ' ')
      if date.isEmpty then none
      else
        match rest.drop date.length with
        | ' ' :: rest2 =>
          some { hash := String.mk hash,
                 date := String.mk date,
                 name := String.mk
                   (rest2.takeWhile (fun c => c != '\n' && c != '\r')) }
        | _ => none
    | _ => none

/-! ## Output parsing (`parseOutput` in lib/git.js) -/

/-- `parseOutput` specialised to a parser returning a list per line (the tag
case): split into lines, apply the parser to each, and flatten.  The JS
`filter(Boolean)` step is the identity here because every produced element
is an object (always truthy). -/
def parseOutputList (parser : String → List α) (input : String) : List α :=
  ((splitLines input).map parser).flatten

/-- `parseOutput` specialised to a parser returning one optional record per
line (the commit case): split into lines, apply the parser, and drop the
`undefined` results via `filter(Boolean)`. -/
def parseOutputOpt (parser : String → Option α) (input : String) : List α :=
  (splitLines input).filterMap parser

/-! ## Issue-reference extraction (`matchGithubIssues` in lib/git.js)

The issue-reference pattern is the default configuration value
`/(Fix|Close|Resolve) #(\d+)/g`.  A match at a position consists of one of
the three keywords (their first letters differ, so no backtracking among
alternatives is possible), a space, a hash sign, and a maximal non-empty run
of ASCII digits; the digit run is the second capture group.  `matchAt`
embeds an anchored match attempt at the head of the character list,
returning the captured digits and the total number of characters consumed. -/

/-- Length of the keyword-space-hash portion when one of the three
alternatives of the default issue regex matches at the head of the list:
5 for Fix, 7 for Close, 9 for Resolve. -/
def keywordLen (cs : List Char) : Option Nat :=
  if "Fix #".toList.isPrefixOf cs then some 5
  else if "Close #".toList.isPrefixOf cs then some 7
  else if "Resolve #".toList.isPrefixOf cs then some 9
  else none

/-- Anchored match of the default issue regex at the head of `cs`: the
digits of the second capture group together with the number of characters
the whole match consumes, or `none` when the regex does not match here. -/
def matchAt (cs : List Char) : Option (String × Nat) :=
  match keywordLen cs with
  | none => none
  | some k =>
    let ds := (cs.drop k).takeWhile (fun c => c.isDigit)
    if ds.isEmpty then none else some (String.mk ds, k + ds.length)

/-- Leftmost match of the issue regex in `l` at offset `i` or later (the
list `l` is the suffix of the subject string starting at `i`): returns the
second capture group together with the absolute end position of the match.
Embeds the search performed by `regex.exec` starting at `lastIndex`. -/
def searchAux : List Char → Nat → Option (String × Nat)
  | [], _ => none
  | c :: rest, i =>
    match matchAt (c :: rest) with
    | some (d, k) => some (d, i + k)
    | none => searchAux rest (i + 1)

/-- One call of `regex.exec(input)` on a global regex whose `lastIndex` is
`li`: search for the leftmost match at position `li` or later, returning
the second capture group and the updated `lastIndex` (the match end). -/
def execIssue (cs : List Char) (li : Nat) : Option (String × Nat) :=
  searchAux (cs.drop li) li

/-- The `while (issuesMatch != null)` loop of `matchGithubIssues`,
collecting the second capture group of each successive `exec` call; the
fuel argument bounds the iteration count (length of the subject plus one is
always sufficient, since `lastIndex` strictly increases and is bounded by
the length). -/
def collectIssues (cs : List Char) : Nat → Nat → List String
  | 0, _ => []
  | fuel + 1, li =>
    match execIssue cs li with
    | none => []
    | some (d, li2) => d :: collectIssues cs fuel li2

/-- Embedding of `matchGithubIssues` from lib/git.js, applied to the default
issue-reference pattern: repeated `exec` on a global regex, pushing the
second capture group of every match. -/
def matchIssues (s : String) : List String :=
  collectIssues s.toList (s.toList.length + 1) 0

/-- Modelled from the spec: the issue numbers of a message are the second
capture group of every non-overlapping match of the issue-reference
pattern, collected left to right with duplicates preserved.  Defined by
direct scanning: at each position, either a match starts (collect its
digits and resume after the match) or move one character right.  The fuel
argument bounds the recursion; every step consumes at least one character,
so fuel equal to the length of the list is always sufficient. -/
def specScanAux : Nat → List Char → List String
  | _, [] => []
  | 0, _ :: _ => []
  | fuel + 1, c :: rest =>
    match matchAt (c :: rest) with
    | some (d, k) => d :: specScanAux fuel ((c :: rest).drop k)
    | none => specScanAux fuel rest

/-- The spec-side issue extraction: all non-overlapping matches of the
issue-reference pattern scanned left to right, each contributing its second
capture group. -/
def specScan (cs : List Char) : List String :=
  specScanAux cs.length cs

/-! ## Classification (`filterExternalIssues`, `filterLocalCommits`,
`removeMatch` and the grouping part of `retrieve` in lib/git.js) -/

/-- Embedding of the local callback `filterIssueType` inside
`filterExternalIssues`: true when the issue number is present in the
mapping and its record carries the match text among its labels; when the
number is absent the JS callback returns `undefined`, which the filter
treats as false. -/
def filterIssueType (issues : List (String × Issue)) (mtch : String)
    (commitIssue : String) : Bool :=
  match lookupIssue issues commitIssue with
  | some iss => iss.labels.contains mtch
  | none => false

/-- Embedding of `filterExternalIssues`: for each commit (in order), keep
the issue numbers of its `issues` field (absent field read as the empty
list) that pass `filterIssueType`, and emit one shallow copy of the commit
per kept number, annotated with it. -/
def filterExternalIssues (commits : List Commit) (issues : List (String × Issue))
    (mtch : String) : List GEntry :=
  (commits.map (fun commit =>
    ((commit.issues.getD []).filter (filterIssueType issues mtch)).map
      (fun ci => { commit := commit, issueNumber := some ci }))).flatten

/-- Embedding of `filterLocalCommits`: true exactly when the commit's
issue list (absent field read as the empty list) is empty and the name
matches the rule's match field -- regex `test` for a RegExp match field,
substring containment for a string one. -/
def filterLocalCommits (name : String) (issues : List String)
    (mtch : LabelMatch) : Bool :=
  issues.length == 0 &&
    (match mtch with
     | .re t _ => t name
     | .lit s => containsStr s name)

/-- Embedding of `removeMatch`: replace the first occurrence of the match
in the commit name with the empty string (`name.replace(match, '')`),
producing a shallow copy of the commit. -/
def removeMatch (mtch : LabelMatch) (commit : Commit) : Commit :=
  { commit with
    name :=
      match mtch with
      | .lit s => removeFirst s commit.name
      | .re _ r => r commit.name }

/-- The pure classification core of `retrieve` (steps after the GitHub
fetch): build `commitsWithIssues` by re-deriving every commit's `issues`
field from its message (here instantiated with the default issue-reference
pattern embedded by `matchIssues`), run the external pass over
`commitsWithIssues`, run the local pass over the ORIGINAL `commits` list
(exactly as the source does -- the local pass reads `commit.issues` of the
raw input commit, not of the re-derived copy), and concatenate external
groups before local groups.  `resultify` pairs each entry list with the
name of the rule at the same index, embedded by `zipWith`. -/
def retrieveGroups (commits : List Commit) (issues : List (String × Issue))
    (externalLabels : List ExternalRule) (localLabels : List LocalRule) :
    List Group :=
  let commitsWithIssues := commits.map (fun c =>
    { c with issues := some (matchIssues c.name) })
  let githubCommits :=
    (externalLabels.map (fun label =>
      filterExternalIssues commitsWithIssues issues label.mtch)).zipWith
      (fun cs label => { name := label.name, commits := cs }) externalLabels
  let localCommits :=
    (localLabels.map (fun label =>
      ((commits.filter (fun commit =>
        filterLocalCommits commit.name (commit.issues.getD [])
          label.mtch)).map (removeMatch label.mtch)).map
        (fun c => { commit := c, issueNumber := none }))).zipWith
      (fun cs label => { name := label.name, commits := cs }) localLabels
  githubCommits ++ localCommits

/-- Modelled from the spec: the external pass emits, for every commit in
order and every issue number in that commit's issue list in order, exactly
one entry -- a copy of the commit annotated with that number -- when the
number is present in the issue mapping and its record's label set contains
the match text, and nothing otherwise. -/
def specExternalEntries (c : Commit) (issues : List (String × Issue))
    (mtch : String) : List String → List GEntry
  | [] => []
  | n :: ns =>
    (match lookupIssue issues n with
     | some iss =>
       if iss.labels.contains mtch then
         [{ commit := c, issueNumber := some n }]
       else []
     | none => []) ++ specExternalEntries c issues mtch ns

/-- Modelled from the spec: the whole external pass for one rule, commit by
commit. -/
def specExternalPass (commits : List Commit) (issues : List (String × Issue))
    (mtch : String) : List GEntry :=
  match commits with
  | [] => []
  | c :: rest =>
    specExternalEntries c issues mtch (c.issues.getD []) ++
      specExternalPass rest issues mtch

/-- Modelled from the spec: removal of the first occurrence, phrased by
index -- if the pattern occurs, the name splits as prefix, pattern,
suffix at the earliest occurrence and the result is prefix concatenated
with suffix; otherwise the name is unchanged. -/
def specRemoveFirst (pat s : String) : String :=
  match firstIdxAux pat.toList s.toList with
  | none => s
  | some i =>
    String.mk (s.toList.take i ++ s.toList.drop (i + pat.toList.length))

/-- Modelled from the spec: per-entry form of the tag parse -- each
decoration entry is stripped of the first occurrence of the text `tag: `,
and contributes exactly one Tag record (name and line date) when the
stripped name matches the configured pattern, and nothing otherwise. -/
def specTagEntries (p : String → Bool) (date : String) : List String → List Tag
  | [] => []
  | e :: es =>
    let name := removeFirst "tag: " e
    (if p name then [{ name := name, date := date }] else []) ++
      specTagEntries p date es

/-- Modelled from the spec (amended): a line that does not parse or whose
decoration part is empty yields no records; otherwise the decoration is
split on commas and each entry processed by `specTagEntries`. -/
def specTagParser (p : String → Bool) (input : String) : List Tag :=
  match lineSplit input with
  | none => []
  | some (date, tags) =>
    if tags = "" then [] else specTagEntries p date (splitStr ", " tags)

/-! ## Tag window selection (`getTagsBetween` in lib/git.js) -/

/-- Index of the first element satisfying the predicate; embeds JS
`Array.prototype.findIndex`, with `none` standing for the JS result -1. -/
def findIdxOpt (p : α → Bool) : List α → Option Nat
  | [] => none
  | a :: l => if p a then some 0 else (findIdxOpt p l).map (· + 1)

/-- Embedding of `getTagsBetween`: with no target (or the falsy empty
string), the window starts at index 0; with a non-empty target, at the
index of the first tag whose name equals it (`findIndex`, `none` embedding
the JS result -1).  The window is that index and the next one; when the
start index is -1 or the next index is out of range, the selection yields
nothing. -/
def getTagsBetween (tags : List Tag) (tag : Option String) :
    Option (Tag × Tag) :=
  let fromIndex : Option Nat :=
    match tag with
    | none => some 0
    | some t =>
      if t = "" then some 0
      else findIdxOpt (fun x => x.name == t) tags
  match fromIndex with
  | none => none
  | some i =>
    if i + 1 ≥ tags.length then none
    else
      match tags[i]?, tags[i + 1]? with
      | some a, some b => some (a, b)
      | _, _ => none

/-! ## History read (`read` in lib/git.js) -/

/-- Result of `read`: the commits of the release window and its two
bounding tags. -/
structure ReadResult where
  commits : List Commit
  fromTag : Tag
  toTag : Tag
deriving Repr, DecidableEq

/-- Embedding of `read`: the version-control backend is abstracted into the
raw tag text it returns and a function giving the raw history text for a
pair of tag names.  Parse and flatten the tags; fewer than two is a fatal
error; a failed window selection is a fatal error; otherwise parse the
commits between the selected tags and return them with the window bounds. -/
def read (tagText : String) (commitText : String → String → String)
    (tagTest : String → Bool) (tag : Option String) :
    Except String ReadResult :=
  let tags := parseOutputList (tagParser tagTest) tagText
  if tags.length ≤ 1 then Except.error "Failed to get tags with tagRegex"
  else
    match getTagsBetween tags tag with
    | none => Except.error "Failed to get tags"
    | some (fromTag, toTag) =>
      Except.ok
        { commits := parseOutputOpt commitParser
            (commitText fromTag.name toTag.name),
          fromTag := fromTag,
          toTag := toTag }

/-! ## Batch fetching (`getIssuesFromGitHub` in lib/git.js) -/

/-- Embedding of lodash `_.chunk` with a fuel argument (fuel at least the
length of the list is always sufficient): split the list into consecutive
chunks of size `n`, the last possibly smaller; chunk size 0 yields no
chunks. -/
def chunkAux (n : Nat) : Nat → List α → List (List α)
  | _, [] => []
  | 0, l => [l]
  | fuel + 1, x :: xs =>
    (x :: xs).take n :: chunkAux n fuel ((x :: xs).drop n)

/-- Lodash `_.chunk issues n`. -/
def chunkList (n : Nat) (l : List α) : List (List α) :=
  if n = 0 then [] else chunkAux n l.length l

/-- Observable events of the batch loop in `getIssuesFromGitHub`: issuing
one batch of fetches, or sleeping the inter-batch delay. -/
inductive FetchEvent where
  | batch (chunk : List Nat)
  | wait
deriving Repr, DecidableEq

/-- The batch loop of `getIssuesFromGitHub` as an event trace: for each
chunk in order, a `batch` event; then, when the number of accumulated
results (`done` plus the chunk just processed) is still short of the total
issue count, one `wait` event before the next iteration.  The comparison is
over integers, exactly as in JS. -/
def batchGo (total : Nat) : List (List Nat) → Nat → List FetchEvent
  | [], _ => []
  | c :: cs, done =>
    FetchEvent.batch c ::
      (if (0 : Int) < (total : Int) - ((done + c.length : Nat) : Int) then
        FetchEvent.wait :: batchGo total cs (done + c.length)
      else batchGo total cs (done + c.length))

/-- Event trace of `getIssuesFromGitHub` for a list of issue numbers and a
batch size: chunk the list, then run the batch loop. -/
def batchTrace (issues : List Nat) (n : Nat) : List FetchEvent :=
  batchGo issues.length (chunkList n issues) 0

/-! ## Retry (`getWithRetry` in lib/git.js) -/

/-- One-step outcome classification for the retry model. -/
def isErr : Except E A → Bool
  | Except.error _ => true
  | Except.ok _ => false

/-- The retry loop of `getWithRetry`.  The wrapped function is modelled as
a map from attempt index to outcome.  `fuel` is the number of loop
iterations still allowed (initially the retry budget), `i` the current
attempt index.  Returns the final outcome -- `ok (some a)` on success,
`error e` when the last allowed attempt fails, and `ok none` when the loop
body never runs (the JS function falls off the loop and resolves to
`undefined`) -- together with the number of invocations of the wrapped
function and the number of sleeps taken between attempts. -/
def retryGo (fn : Nat → Except E A) : Nat → Nat →
    Except E (Option A) × Nat × Nat
  | 0, _ => (Except.ok none, 0, 0)
  | fuel + 1, i =>
    match fn i with
    | Except.ok a => (Except.ok (some a), 1, 0)
    | Except.error e =>
      if fuel = 0 then (Except.error e, 1, 0)
      else
        match retryGo fn fuel (i + 1) with
        | (r, calls, waits) => (r, calls + 1, waits + 1)

/-- Embedding of `getWithRetry fn retries`: the retry budget is an integer
(the JS loop `for (let i = 0; i < retries; ++i)` runs `max retries 0`
times), and the call returns the outcome together with the invocation and
delay counts. -/
def runRetry (fn : Nat → Except E A) (retries : Int) :
    Except E (Option A) × Nat × Nat :=
  retryGo fn retries.toNat 0

/-! ## Helper lemmas -/

theorem removeFirstAux_eq (pat : List Char) (s : List Char) :
    removeFirstAux pat s =
      match firstIdxAux pat s with
      | none => s
      | some i => s.take i ++ s.drop (i + pat.length) := by
  induction s with
  | nil =>
    simp only [removeFirstAux, firstIdxAux]
    by_cases h : pat.isEmpty
    · simp [h, List.isEmpty_iff.mp h]
    · simp [h]
  | cons c cs ih =>
    simp only [removeFirstAux, firstIdxAux]
    by_cases h : pat.isPrefixOf (c :: cs)
    · simp [h]
    · simp only [h, if_false]
      cases hidx : firstIdxAux pat cs with
      | none => simpa [hidx] using ih
      | some i =>
        rw [hidx] at ih
        simp [hidx, List.take_succ_cons, List.drop_succ_cons, ih,
          Nat.add_right_comm]

theorem findIdxOpt_lt_length {p : α → Bool} {l : List α} {i : Nat}
    (h : findIdxOpt p l = some i) : i < l.length := by
  induction l generalizing i with
  | nil => simp [findIdxOpt] at h
  | cons a l ih =>
    simp only [findIdxOpt] at h
    cases ha : p a with
    | true =>
      simp only [ha, if_true, Option.some.injEq] at h
      simp [← h]
    | false =>
      simp only [ha, Bool.false_eq_true, if_false] at h
      cases hidx : findIdxOpt p l with
      | none => simp [hidx] at h
      | some j =>
        rw [hidx] at h
        simp only [Option.map, Option.some.injEq] at h
        have := ih hidx
        simp only [List.length_cons]
        omega

theorem findIdxOpt_found {p : α → Bool} {l : List α} {i : Nat}
    (h : findIdxOpt p l = some i) : ∃ a, l[i]? = some a ∧ p a = true := by
  induction l generalizing i with
  | nil => simp [findIdxOpt] at h
  | cons a l ih =>
    simp only [findIdxOpt] at h
    cases ha : p a with
    | true =>
      simp only [ha, if_true, Option.some.injEq] at h
      exact ⟨a, by simp [← h], ha⟩
    | false =>
      simp only [ha, Bool.false_eq_true, if_false] at h
      cases hidx : findIdxOpt p l with
      | none => simp [hidx] at h
      | some j =>
        rw [hidx] at h
        simp only [Option.map, Option.some.injEq] at h
        obtain ⟨b, hb, hpb⟩ := ih hidx
        refine ⟨b, ?_, hpb⟩
        rw [← h]
        simpa using hb

theorem findIdxOpt_eq_none {p : α → Bool} {l : List α} :
    findIdxOpt p l = none ↔ ∀ a ∈ l, p a = false := by
  induction l with
  | nil => simp [findIdxOpt]
  | cons a l ih =>
    simp only [findIdxOpt]
    cases ha : p a with
    | true =>
      simp only [if_true]
      constructor
      · intro h
        exact absurd h (by simp)
      · intro h
        have := h a (List.mem_cons_self a l)
        rw [ha] at this
        exact absurd this (by simp)
    | false =>
      simp only [Bool.false_eq_true, if_false]
      constructor
      · intro h b hb
        rcases List.mem_cons.mp hb with rfl | hb2
        · exact ha
        · have hnone : findIdxOpt p l = none := by
            cases hidx : findIdxOpt p l with
            | none => rfl
            | some j => rw [hidx] at h; simp at h
          exact ih.mp hnone b hb2
      · intro h
        have hnone : findIdxOpt p l = none :=
          ih.mpr (fun b hb => h b (List.mem_cons_of_mem a hb))
        rw [hnone]
        rfl

theorem specTagEntries_eq (p : String → Bool) (date : String)
    (l : List String) :
    ((l.map (fun x => removeFirst "tag: " x)).filter p).map
        (fun x => ({ name := x, date := date } : Tag)) =
      specTagEntries p date l := by
  induction l with
  | nil => simp [specTagEntries]
  | cons e es ih =>
    simp only [List.map_cons, specTagEntries]
    by_cases h : p (removeFirst "tag: " e)
    · simp [List.filter_cons, h, ih]
    · simp [List.filter_cons, h, ih]

theorem mk_toList (s : String) : String.mk s.toList = s := by
  cases s
  rfl

/-! ## Claim C7 -/

/-- C7 counterexample: the claim states that a decoration entry without the
text `tag: ` as a prefix never produces a Tag record, but `tagParser` only
strips the prefix and then filters by the configured pattern -- it never
requires the prefix.  On the line below the sole decoration entry is the
bare ref name `v1.2.3`, which does not carry the prefix (it does not even
contain the text), and with a tag pattern accepting that name the parser
produces a Tag record for it. -/
theorem tagParser_no_prefix_counterexample :
    tagParser (fun s => s == "v1.2.3") "2018-08-07T10:28:33+02:00 v1.2.3" =
      [{ name := "v1.2.3", date := "2018-08-07T10:28:33+02:00" }] ∧
    splitStr ", " "v1.2.3" = ["v1.2.3"] ∧
    ("tag: ".toList.isPrefixOf "v1.2.3".toList) = false ∧
    containsStr "tag: " "v1.2.3" = false := by
  decide

/-- C7 (amended): for every line and every configured tag pattern, the
parser yields exactly one Tag record (named after the stripped entry, dated
with the line's date) per decoration entry which, after the first
occurrence of the text `tag: ` is removed, matches the pattern -- whether
or not the entry carried the prefix; a line that does not parse, or whose
decoration part is empty, or none of whose stripped entries match the
pattern, yields no records.  Stated as equality with the entry-by-entry
spec-side definition. -/
theorem tagParser_eq_spec (p : String → Bool) (input : String) :
    tagParser p input = specTagParser p input := by
  unfold tagParser specTagParser
  cases lineSplit input with
  | none => rfl
  | some pr =>
    obtain ⟨date, tags⟩ := pr
    by_cases h : tags = ""
    · simp [h]
    · simp only [h, if_false]
      exact specTagEntries_eq p date (splitStr ", " tags)

/-! ## Claim C9 -/

/-- C9 counterexample: the claim states that after the match text is
stripped, the resulting commit name never contains the match text, even for
messages containing it more than once.  The commit below is matched by the
local rule with match text `Hotfix - ` (no linked issues, name contains the
text), yet after `removeMatch` -- which replaces only the first occurrence
-- the resulting name still contains the match text. -/
theorem removeMatch_counterexample :
    filterLocalCommits "Hotfix - Hotfix - typo" []
        (LabelMatch.lit "Hotfix - ") = true ∧
    containsStr "Hotfix - "
      ((removeMatch (LabelMatch.lit "Hotfix - ")
        { hash := "abcdef123", date := "2018-01-01T00:00:00+01:00",
          name := "Hotfix - Hotfix - typo" }).name) = true := by
  decide

/-- C9 (amended): `removeMatch` with a string match text replaces exactly
the first occurrence of the match text in the commit's message -- the name
splits as prefix, match, suffix at the earliest occurrence and the result
is prefix concatenated with suffix, the name being unchanged when the text
does not occur -- and all other commit fields are preserved.  (When the
message contains the match text only once and the removal does not splice a
new occurrence together, the result therefore no longer contains it, but in
general it may, as the counterexample shows.)  Stated as equality with the
index-based spec-side definition. -/
theorem removeMatch_eq_spec (m : String) (c : Commit) :
    removeMatch (LabelMatch.lit m) c =
      { c with name := specRemoveFirst m c.name } := by
  have key : removeFirst m c.name = specRemoveFirst m c.name := by
    unfold removeFirst specRemoveFirst
    rw [removeFirstAux_eq]
    cases firstIdxAux m.toList c.name.toList with
    | none => exact mk_toList c.name
    | some i => rfl
  show { c with name := removeFirst m c.name } =
    { c with name := specRemoveFirst m c.name }
  rw [key]

/-! ## Claim C2 -/

/-- C2: for every tag list with at least two entries, `getTagsBetween` with
no target returns the entries at indices 0 and 1; with a (non-empty) target
present at first index `i` with `i + 1` in range it returns the entry at
`i` (whose name is the target) together with the entry at `i + 1`; and it
returns nothing exactly when no entry's name equals the target or the first
entry named the target is the last (oldest) one. -/
theorem getTagsBetween_some_idx (tags : List Tag) (t : String)
    (ht : ¬ t = "") {i : Nat}
    (hidx : findIdxOpt (fun x => x.name == t) tags = some i) :
    getTagsBetween tags (some t) =
      if i + 1 ≥ tags.length then none
      else
        match tags[i]?, tags[i + 1]? with
        | some a, some b => some (a, b)
        | _, _ => none := by
  simp only [getTagsBetween]
  rw [if_neg ht, hidx]

theorem getTagsBetween_some_none (tags : List Tag) (t : String)
    (ht : ¬ t = "")
    (hidx : findIdxOpt (fun x => x.name == t) tags = none) :
    getTagsBetween tags (some t) = none := by
  simp only [getTagsBetween]
  rw [if_neg ht, hidx]

theorem getTagsBetween_spec (tags : List Tag) (t : String) (ht : ¬ t = "")
    (hlen : 2 ≤ tags.length) :
    (∀ t0 t1 rest, tags = t0 :: t1 :: rest →
      getTagsBetween tags none = some (t0, t1)) ∧
    (∀ i, findIdxOpt (fun x => x.name == t) tags = some i →
      i + 1 < tags.length →
      ∃ a b, tags[i]? = some a ∧ tags[i + 1]? = some b ∧ a.name = t ∧
        getTagsBetween tags (some t) = some (a, b)) ∧
    (getTagsBetween tags (some t) = none ↔
      (∀ x ∈ tags, ¬ x.name = t) ∨
        findIdxOpt (fun x => x.name == t) tags = some (tags.length - 1)) := by
  refine ⟨?_, ?_, ?_⟩
  · rintro t0 t1 rest rfl
    simp [getTagsBetween]
  · intro i hidx hlt
    obtain ⟨a, ha, hpa⟩ := findIdxOpt_found hidx
    obtain ⟨b, hb⟩ : ∃ b, tags[i + 1]? = some b := by
      cases hg : tags[i + 1]? with
      | some b => exact ⟨b, rfl⟩
      | none =>
        have hge := List.getElem?_eq_none_iff.mp hg
        omega
    refine ⟨a, b, ha, hb, by simpa using hpa, ?_⟩
    rw [getTagsBetween_some_idx tags t ht hidx,
      if_neg (by omega : ¬ i + 1 ≥ tags.length), ha, hb]
  · cases hidx : findIdxOpt (fun x => x.name == t) tags with
    | none =>
      have hleft : ∀ x ∈ tags, ¬ x.name = t := by
        intro x hx
        have := findIdxOpt_eq_none.mp hidx x hx
        simpa using this
      constructor
      · intro _
        exact Or.inl hleft
      · intro _
        exact getTagsBetween_some_none tags t ht hidx
    | some i =>
      have hi := findIdxOpt_lt_length hidx
      obtain ⟨a, ha, hpa⟩ := findIdxOpt_found hidx
      by_cases hge : i + 1 ≥ tags.length
      · have hieq : i = tags.length - 1 := by omega
        constructor
        · intro _
          right
          rw [hieq]
        · intro _
          rw [getTagsBetween_some_idx tags t ht hidx, if_pos hge]
      · obtain ⟨b, hb⟩ : ∃ b, tags[i + 1]? = some b := by
          cases hg : tags[i + 1]? with
          | some b => exact ⟨b, rfl⟩
          | none =>
            have := List.getElem?_eq_none_iff.mp hg
            omega
        have hres : getTagsBetween tags (some t) = some (a, b) := by
          rw [getTagsBetween_some_idx tags t ht hidx, if_neg hge, ha, hb]
        rw [hres]
        constructor
        · intro h
          exact absurd h (by simp)
        · rintro (h | h)
          · have hmem : a ∈ tags := by
              have := List.getElem?_eq_some_iff.mp ha
              obtain ⟨hlt2, hget⟩ := this
              exact hget ▸ List.getElem_mem hlt2
            have : ¬ a.name = t := h a hmem
            exact absurd (by simpa using hpa) this
          · have : i = tags.length - 1 := by
              simpa using h
            omega

/-- C2 witness: the spec theorem applied at a concrete three-tag list --
a present, non-oldest target returns it and the next tag; no target returns
the two newest; the oldest tag as target returns nothing. -/
theorem getTagsBetween_spec_witness :
    getTagsBetween
        [{ name := "v3", date := "d3" }, { name := "v2", date := "d2" },
          { name := "v1", date := "d1" }] (some "v2") =
      some ({ name := "v2", date := "d2" }, { name := "v1", date := "d1" }) ∧
    getTagsBetween
        [{ name := "v3", date := "d3" }, { name := "v2", date := "d2" },
          { name := "v1", date := "d1" }] none =
      some ({ name := "v3", date := "d3" }, { name := "v2", date := "d2" }) ∧
    getTagsBetween
        [{ name := "v3", date := "d3" }, { name := "v2", date := "d2" },
          { name := "v1", date := "d1" }] (some "v1") = none := by
  have h := getTagsBetween_spec
    [{ name := "v3", date := "d3" }, { name := "v2", date := "d2" },
      { name := "v1", date := "d1" }] "v2" (by decide) (by decide)
  have h2 := getTagsBetween_spec
    [{ name := "v3", date := "d3" }, { name := "v2", date := "d2" },
      { name := "v1", date := "d1" }] "v1" (by decide) (by decide)
  refine ⟨?_, h.1 _ _ _ rfl, h2.2.2.mpr (Or.inr (by decide))⟩
  obtain ⟨a, b, ha, hb, _, hres⟩ := h.2.1 1 (by decide) (by decide)
  have ea : ([{ name := "v3", date := "d3" }, { name := "v2", date := "d2" },
      { name := "v1", date := "d1" }] : List Tag)[1]? =
      some { name := "v2", date := "d2" } := rfl
  have eb : ([{ name := "v3", date := "d3" }, { name := "v2", date := "d2" },
      { name := "v1", date := "d1" }] : List Tag)[2]? =
      some { name := "v1", date := "d1" } := rfl
  rw [ea] at ha
  rw [eb] at hb
  obtain rfl := (Option.some.inj ha).symm
  obtain rfl := (Option.some.inj hb).symm
  exact hres

/-! ## Lemmas for the issue-extraction claim -/

theorem keywordLen_bounds {cs : List Char} {kl : Nat}
    (h : keywordLen cs = some kl) : 5 ≤ kl ∧ kl ≤ cs.length := by
  unfold keywordLen at h
  by_cases h1 : "Fix #".toList.isPrefixOf cs = true
  · rw [if_pos h1] at h
    cases h
    have hle := (List.isPrefixOf_iff_prefix.mp h1).length_le
    have e : ("Fix #".toList).length = 5 := by decide
    rw [e] at hle
    omega
  · rw [if_neg h1] at h
    by_cases h2 : "Close #".toList.isPrefixOf cs = true
    · rw [if_pos h2] at h
      cases h
      have hle := (List.isPrefixOf_iff_prefix.mp h2).length_le
      have e : ("Close #".toList).length = 7 := by decide
      rw [e] at hle
      omega
    · rw [if_neg h2] at h
      by_cases h3 : "Resolve #".toList.isPrefixOf cs = true
      · rw [if_pos h3] at h
        cases h
        have hle := (List.isPrefixOf_iff_prefix.mp h3).length_le
        have e : ("Resolve #".toList).length = 9 := by decide
        rw [e] at hle
        omega
      · rw [if_neg h3] at h
        cases h

theorem matchAt_bounds {cs : List Char} {d : String} {k : Nat}
    (h : matchAt cs = some (d, k)) : 1 ≤ k ∧ k ≤ cs.length := by
  unfold matchAt at h
  cases hkw : keywordLen cs with
  | none => rw [hkw] at h; simp at h
  | some kl =>
    rw [hkw] at h
    have h4 : (if ((cs.drop kl).takeWhile (fun c => c.isDigit)).isEmpty = true
        then none
        else some (String.mk ((cs.drop kl).takeWhile (fun c => c.isDigit)),
          kl + ((cs.drop kl).takeWhile (fun c => c.isDigit)).length)) =
        some (d, k) := h
    by_cases hds : ((cs.drop kl).takeWhile (fun c => c.isDigit)).isEmpty = true
    · rw [if_pos hds] at h4
      simp at h4
    · rw [if_neg hds] at h4
      have h2 := Option.some.inj h4
      have hk : kl + ((cs.drop kl).takeWhile (fun c => c.isDigit)).length = k :=
        congrArg Prod.snd h2
      have hkl := keywordLen_bounds hkw
      have htw : ((cs.drop kl).takeWhile (fun c => c.isDigit)).length ≤
          (cs.drop kl).length := (List.takeWhile_sublist _).length_le
      have hdl : (cs.drop kl).length = cs.length - kl := List.length_drop _ _
      omega

theorem specScanAux_congr : ∀ (f1 f2 : Nat) (l : List Char),
    l.length ≤ f1 → l.length ≤ f2 → specScanAux f1 l = specScanAux f2 l := by
  intro f1
  induction f1 with
  | zero =>
    intro f2 l h1 _
    have hl : l = [] := List.length_eq_zero.mp (by omega)
    subst hl
    cases f2 <;> rfl
  | succ f1 ih =>
    intro f2 l h1 h2
    cases l with
    | nil => cases f2 <;> rfl
    | cons c rest =>
      cases f2 with
      | zero => simp at h2
      | succ f2 =>
        cases hm : matchAt (c :: rest) with
        | some pr =>
          obtain ⟨d, k⟩ := pr
          obtain ⟨hk1, hk2⟩ := matchAt_bounds hm
          simp only [specScanAux, hm]
          have hdl : ((c :: rest).drop k).length = (c :: rest).length - k :=
            List.length_drop _ _
          rw [ih f2 ((c :: rest).drop k)
            (by simp only [hdl]; simp at h1 ⊢; omega)
            (by simp only [hdl]; simp at h2 ⊢; omega)]
        | none =>
          simp only [specScanAux, hm]
          exact ih f2 rest (by simp at h1; omega) (by simp at h2; omega)

theorem searchAux_none : ∀ (l : List Char) (i f : Nat),
    searchAux l i = none → specScanAux f l = [] := by
  intro l
  induction l with
  | nil => intro i f _; cases f <;> rfl
  | cons c rest ih =>
    intro i f h
    cases hm : matchAt (c :: rest) with
    | some pr =>
      obtain ⟨d, k⟩ := pr
      unfold searchAux at h
      rw [hm] at h
      simp at h
    | none =>
      unfold searchAux at h
      rw [hm] at h
      have h2 : searchAux rest (i + 1) = none := h
      cases f with
      | zero => rfl
      | succ f =>
        simp only [specScanAux, hm]
        exact ih (i + 1) f h2

theorem searchAux_some : ∀ (l : List Char) (i : Nat) (d : String) (m : Nat),
    searchAux l i = some (d, m) →
      i < m ∧ m - i ≤ l.length ∧
        specScan l = d :: specScan (l.drop (m - i)) := by
  intro l
  induction l with
  | nil =>
    intro i d m h
    simp [searchAux] at h
  | cons c rest ih =>
    intro i d m h
    cases hm : matchAt (c :: rest) with
    | some pr =>
      obtain ⟨d2, k⟩ := pr
      unfold searchAux at h
      rw [hm] at h
      have h2 : some (d2, i + k) = some (d, m) := h
      have h3 := Option.some.inj h2
      have hd : d2 = d := congrArg Prod.fst h3
      have hmk : i + k = m := congrArg Prod.snd h3
      obtain ⟨hk1, hk2⟩ := matchAt_bounds hm
      refine ⟨by omega, by simp at hk2 ⊢; omega, ?_⟩
      subst hd
      have hmi : m - i = k := by omega
      rw [hmi]
      unfold specScan
      simp only [List.length_cons, specScanAux, hm]
      have hdl : ((c :: rest).drop k).length = (c :: rest).length - k :=
        List.length_drop _ _
      rw [specScanAux_congr rest.length ((c :: rest).drop k).length
        ((c :: rest).drop k)
        (by simp only [hdl]; simp; omega) (by omega)]
    | none =>
      unfold searchAux at h
      rw [hm] at h
      have h2 : searchAux rest (i + 1) = some (d, m) := h
      obtain ⟨hlt, hle, hspec⟩ := ih (i + 1) d m h2
      refine ⟨by omega, by simp; omega, ?_⟩
      have e1 : specScan (c :: rest) = specScan rest := by
        unfold specScan
        simp only [List.length_cons, specScanAux, hm]
      rw [e1, hspec]
      have e2 : (c :: rest).drop (m - i) = rest.drop (m - (i + 1)) := by
        have e3 : m - i = (m - (i + 1)) + 1 := by omega
        rw [e3, List.drop_succ_cons]
      rw [e2]

theorem collectIssues_eq : ∀ (f : Nat) (cs : List Char) (li : Nat),
    cs.length + 1 - li ≤ f → collectIssues cs f li = specScan (cs.drop li) := by
  intro f
  induction f with
  | zero =>
    intro cs li h
    have hd : cs.drop li = [] := List.drop_eq_nil_of_le (by omega)
    rw [hd]
    rfl
  | succ f ih =>
    intro cs li h
    cases he : execIssue cs li with
    | none =>
      have h2 : collectIssues cs (f + 1) li = [] := by
        show (match execIssue cs li with
          | none => []
          | some (d, li2) => d :: collectIssues cs f li2) = ([] : List String)
        rw [he]
      rw [h2]
      have h3 : searchAux (cs.drop li) li = none := he
      exact (searchAux_none _ li _ h3).symm
    | some pr =>
      obtain ⟨d, li2⟩ := pr
      have h3 : searchAux (cs.drop li) li = some (d, li2) := he
      obtain ⟨hlt, hle, hspec⟩ := searchAux_some _ li d li2 h3
      have h2 : collectIssues cs (f + 1) li = d :: collectIssues cs f li2 := by
        show (match execIssue cs li with
          | none => []
          | some (d, li2) => d :: collectIssues cs f li2) =
          d :: collectIssues cs f li2
        rw [he]
      have hdl : (cs.drop li).length = cs.length - li := List.length_drop _ _
      rw [h2, hspec, ih cs li2 (by omega)]
      have e2 : (cs.drop li).drop (li2 - li) = cs.drop li2 := by
        rw [List.drop_drop]
        have e3 : li + (li2 - li) = li2 := by omega
        rw [e3]
      rw [e2]

/-! ## Claim C5 -/

/-- C5: for every commit message, the issue numbers extracted by
`matchGithubIssues` with the (default) issue-reference pattern are exactly
the second capture group of every non-overlapping match of the pattern,
scanned left to right with duplicates preserved (the spec-side `specScan`);
and concretely, the empty message and a message with no match yield the
empty list, while messages with one or several (possibly duplicate)
references yield them in order. -/
theorem matchIssues_spec :
    (∀ s : String, matchIssues s = specScan s.toList) ∧
    matchIssues "" = [] ∧
    matchIssues "no references here" = [] ∧
    matchIssues "Fix #1129 - Error dompurify when load" = ["1129"] ∧
    matchIssues "Fix #12 and Fix #12 again Close #7" = ["12", "12", "7"] ∧
    matchIssues "Resolve #10Fix #3" = ["10", "3"] := by
  refine ⟨?_, by decide, by decide, by decide, by decide, by decide⟩
  intro s
  have h := collectIssues_eq (s.toList.length + 1) s.toList 0 (by omega)
  simpa using h

/-! ## Lemmas for the batch claim -/

theorem chunkAux_props (n : Nat) : ∀ (f : Nat) (l : List α),
    l.length ≤ f → 0 < n →
    (∀ c ∈ chunkAux n f l, c ≠ []) ∧
      ((chunkAux n f l).map List.length).sum = l.length := by
  intro f
  induction f with
  | zero =>
    intro l h hn
    have hl : l = [] := List.length_eq_zero.mp (by omega)
    subst hl
    exact ⟨by intro c hc; simp [chunkAux] at hc, rfl⟩
  | succ f ih =>
    intro l h hn
    cases l with
    | nil => exact ⟨by intro c hc; simp [chunkAux] at hc, rfl⟩
    | cons x xs =>
      have hstep : chunkAux n (f + 1) (x :: xs) =
          (x :: xs).take n :: chunkAux n f ((x :: xs).drop n) := rfl
      have hdlen : ((x :: xs).drop n).length ≤ f := by
        have := List.length_drop n (x :: xs)
        simp at h this ⊢
        omega
      obtain ⟨hne, hsum⟩ := ih ((x :: xs).drop n) hdlen hn
      rw [hstep]
      constructor
      · intro c hc
        rcases List.mem_cons.mp hc with rfl | hc2
        · cases n with
          | zero => omega
          | succ n => simp [List.take_succ_cons]
        · exact hne c hc2
      · simp only [List.map_cons, List.sum_cons, hsum]
        have ht := List.length_take n (x :: xs)
        have hd := List.length_drop n (x :: xs)
        omega

theorem batchGo_eq_intersperse (total : Nat) :
    ∀ (cs : List (List Nat)) (done : Nat),
      (∀ c ∈ cs, c ≠ []) →
      done + (cs.map List.length).sum = total →
      batchGo total cs done =
        List.intersperse FetchEvent.wait (cs.map FetchEvent.batch) := by
  intro cs
  induction cs with
  | nil => intro done _ _; rfl
  | cons c cs ih =>
    intro done hne hsum
    cases cs with
    | nil =>
      have hd2 : done + c.length = total := by simpa using hsum
      have hcond : ¬ ((0 : Int) < (total : Int) -
          ((done + c.length : Nat) : Int)) := by omega
      show FetchEvent.batch c ::
        (if (0 : Int) < (total : Int) - ((done + c.length : Nat) : Int) then
          FetchEvent.wait :: batchGo total [] (done + c.length)
        else batchGo total [] (done + c.length)) = _
      rw [if_neg hcond]
      rfl
    | cons c2 cs2 =>
      have hc2 : c2 ≠ [] := hne c2 (by simp)
      have hlen2 : 1 ≤ c2.length := by
        cases c2 with
        | nil => exact absurd rfl hc2
        | cons y ys => simp
      have hsum2 : done + c.length +
          (c2.length + ((cs2.map List.length).sum)) = total := by
        simp only [List.map_cons, List.sum_cons] at hsum
        omega
      have hcond : (0 : Int) < (total : Int) -
          ((done + c.length : Nat) : Int) := by omega
      show FetchEvent.batch c ::
        (if (0 : Int) < (total : Int) - ((done + c.length : Nat) : Int) then
          FetchEvent.wait :: batchGo total (c2 :: cs2) (done + c.length)
        else batchGo total (c2 :: cs2) (done + c.length)) = _
      rw [if_pos hcond]
      rw [ih (done + c.length) (fun d hd => hne d (List.mem_cons_of_mem c hd))
        (by simp only [List.map_cons, List.sum_cons]; omega)]
      rfl

/-! ## Claim C3 -/

/-- C3: for every input list of issue numbers, the batch fetcher's event
trace consists of one batch event per chunk of the default size 5 (in
order, the last chunk possibly smaller), with exactly one inter-batch wait
after every batch except the last -- the trace is the interspersal of the
chunk list with a single wait.  In particular 12 issue numbers produce
exactly 3 batches of sizes 5, 5, 2 and exactly 2 waits. -/
theorem batchTrace_spec :
    (∀ issues : List Nat,
      batchTrace issues 5 =
        List.intersperse FetchEvent.wait
          ((chunkList 5 issues).map FetchEvent.batch)) ∧
    (chunkList 5 (List.range 12)).map List.length = [5, 5, 2] ∧
    batchTrace (List.range 12) 5 =
      [FetchEvent.batch [0, 1, 2, 3, 4], FetchEvent.wait,
       FetchEvent.batch [5, 6, 7, 8, 9], FetchEvent.wait,
       FetchEvent.batch [10, 11]] ∧
    (batchTrace (List.range 12) 5).count FetchEvent.wait = 2 := by
  refine ⟨?_, by decide, by decide, by decide⟩
  intro issues
  unfold batchTrace chunkList
  rw [if_neg (by omega : ¬ (5 : Nat) = 0)]
  obtain ⟨hne, hsum⟩ :=
    chunkAux_props 5 issues.length issues (le_refl _) (by omega)
  exact batchGo_eq_intersperse issues.length _ 0 hne (by omega)

/-! ## Lemmas for the retry claims -/

theorem retryGo_success {E A : Type} (fn : Nat → Except E A) :
    ∀ (k f i : Nat) (a : A), k < f →
      (∀ j, j < k → isErr (fn (i + j)) = true) →
      fn (i + k) = Except.ok a →
      retryGo fn f i = (Except.ok (some a), k + 1, k) := by
  intro k
  induction k with
  | zero =>
    intro f i a hf _ hok
    cases f with
    | zero => omega
    | succ f =>
      show (match fn i with
        | Except.ok a => (Except.ok (some a), 1, 0)
        | Except.error e =>
          if f = 0 then (Except.error e, 1, 0)
          else
            match retryGo fn f (i + 1) with
            | (r, calls, waits) => (r, calls + 1, waits + 1)) = _
      rw [show fn i = Except.ok a from by simpa using hok]
  | succ k ih =>
    intro f i a hf hfail hok
    have herr : isErr (fn i) = true := by simpa using hfail 0 (by omega)
    cases hfn : fn i with
    | ok b => rw [hfn] at herr; simp [isErr] at herr
    | error e =>
      cases f with
      | zero => omega
      | succ f =>
        have hrec : retryGo fn f (i + 1) = (Except.ok (some a), k + 1, k) := by
          apply ih f (i + 1) a (by omega)
          · intro j hj
            have := hfail (j + 1) (by omega)
            simpa [Nat.add_assoc, Nat.add_comm 1 j] using this
          · have := hok
            rw [show i + (k + 1) = i + 1 + k from by omega] at this
            exact this
        have hf0 : ¬ f = 0 := by
          intro h0
          subst h0
          omega
        have step : retryGo fn (f + 1) i =
            (if f = 0 then (Except.error e, 1, 0)
             else
              match retryGo fn f (i + 1) with
              | (r, calls, waits) => (r, calls + 1, waits + 1)) := by
          show (match fn i with
            | Except.ok a => (Except.ok (some a), 1, 0)
            | Except.error e =>
              if f = 0 then (Except.error e, 1, 0)
              else
                match retryGo fn f (i + 1) with
                | (r, calls, waits) => (r, calls + 1, waits + 1)) = _
          rw [hfn]
        rw [step, if_neg hf0, hrec]

theorem retryGo_allFail {E A : Type} (fn : Nat → Except E A) :
    ∀ (f i : Nat) (e : E), 0 < f →
      (∀ j, j < f → isErr (fn (i + j)) = true) →
      fn (i + (f - 1)) = Except.error e →
      retryGo fn f i = (Except.error e, f, f - 1) := by
  intro f
  induction f with
  | zero => intro i e h; omega
  | succ f ih =>
    intro i e _ hfail hlast
    cases f with
    | zero =>
      show (match fn i with
        | Except.ok a => (Except.ok (some a), 1, 0)
        | Except.error e =>
          if (0 : Nat) = 0 then (Except.error e, 1, 0)
          else
            match retryGo fn 0 (i + 1) with
            | (r, calls, waits) => (r, calls + 1, waits + 1)) = _
      rw [show fn i = Except.error e from by simpa using hlast]
      rfl
    | succ f =>
      have herr : isErr (fn i) = true := hfail 0 (by omega)
      cases hfn : fn i with
      | ok b =>
        rw [hfn] at herr
        simp [isErr] at herr
      | error e2 =>
        have hrec : retryGo fn (f + 1) (i + 1) =
            (Except.error e, f + 1, f) := by
          have h2 := ih (i + 1) e (by omega) ?_ ?_
          · simpa using h2
          · intro j hj
            have := hfail (j + 1) (by omega)
            simpa [Nat.add_assoc, Nat.add_comm 1 j] using this
          · have := hlast
            rw [show i + (f + 1 + 1 - 1) = i + 1 + (f + 1 - 1) from by
              omega] at this
            exact this
        have step : retryGo fn (f + 1 + 1) i =
            (if f + 1 = 0 then (Except.error e2, 1, 0)
             else
              match retryGo fn (f + 1) (i + 1) with
              | (r, calls, waits) => (r, calls + 1, waits + 1)) := by
          show (match fn i with
            | Except.ok a => (Except.ok (some a), 1, 0)
            | Except.error e =>
              if f + 1 = 0 then (Except.error e, 1, 0)
              else
                match retryGo fn (f + 1) (i + 1) with
                | (r, calls, waits) => (r, calls + 1, waits + 1)) = _
          rw [hfn]
        rw [step, if_neg (by omega : ¬ f + 1 = 0), hrec]
        rfl

/-! ## Claim C4 -/

/-- C4: with the default retry budget of 10, `getWithRetry` invokes the
wrapped function until an attempt succeeds: if the first `k` attempts fail
(`k < 10`) and attempt `k` succeeds with value `a`, the overall result is
that success after exactly `k + 1` invocations with `k` delays slept in
between, and no error is raised; if all 10 attempts fail, the error of the
last (tenth) attempt is re-raised unchanged after exactly 10 invocations
and 9 delays. -/
theorem getWithRetry_spec {E A : Type} (fn : Nat → Except E A) :
    (∀ k a, k < 10 → (∀ j, j < k → isErr (fn j) = true) →
      fn k = Except.ok a →
      runRetry fn 10 = (Except.ok (some a), k + 1, k)) ∧
    (∀ e, (∀ j, j < 10 → isErr (fn j) = true) →
      fn 9 = Except.error e →
      runRetry fn 10 = (Except.error e, 10, 9)) := by
  constructor
  · intro k a hk hfail hok
    have h := retryGo_success fn k 10 0 a hk
      (by intro j hj; simpa using hfail j hj) (by simpa using hok)
    simpa [runRetry] using h
  · intro e hfail hlast
    have h := retryGo_allFail fn 10 0 e (by omega)
      (by intro j hj; simpa using hfail j hj) (by simpa using hlast)
    simpa [runRetry] using h

/-- C4 witness: a fetch function that fails exactly twice and then succeeds
returns the success value using exactly 3 invocations and 2 delays, and a
function failing on all attempts re-raises the last error after 10
invocations and 9 delays. -/
theorem getWithRetry_spec_witness :
    runRetry (fun i => if i < 2 then Except.error "boom"
      else Except.ok (42 : Nat)) 10 = (Except.ok (some 42), 3, 2) ∧
    runRetry (fun _ => (Except.error "boom" : Except String Nat)) 10 =
      (Except.error "boom", 10, 9) := by
  constructor
  · exact (getWithRetry_spec (fun i => if i < 2 then Except.error "boom"
      else Except.ok (42 : Nat))).1 2 42 (by decide) (by decide) (by rfl)
  · exact (getWithRetry_spec
      (fun _ => (Except.error "boom" : Except String Nat))).2 "boom"
      (by decide) (by rfl)

/-! ## Claim C10 -/

/-- C10: constructed with a retry budget of 0 or any non-positive value,
`getWithRetry` resolves to `undefined` (modelled `ok none`) without ever
invoking the wrapped function (0 invocations) and without sleeping or
raising an error. -/
theorem getWithRetry_zero_budget {E A : Type} (fn : Nat → Except E A)
    (retries : Int) (h : retries ≤ 0) :
    runRetry fn retries = (Except.ok none, 0, 0) := by
  unfold runRetry
  rw [Int.toNat_of_nonpos h]
  rfl

/-- C10 witness: the zero-budget theorem applied to a concrete always-failing
fetch function at budgets 0 and -3. -/
theorem getWithRetry_zero_budget_witness :
    runRetry (fun _ => (Except.error "x" : Except String Nat)) 0 =
      (Except.ok none, 0, 0) ∧
    runRetry (fun _ => (Except.error "x" : Except String Nat)) (-3) =
      (Except.ok none, 0, 0) := by
  exact ⟨getWithRetry_zero_budget _ 0 (by decide),
    getWithRetry_zero_budget _ (-3) (by decide)⟩

/-! ## Lemmas for the external-pass claim -/

theorem specExternalEntries_eq (c : Commit) (issues : List (String × Issue))
    (m : String) : ∀ ns : List String,
    ((ns.filter (filterIssueType issues m)).map (fun ci =>
          ({ commit := c, issueNumber := some ci } : GEntry))) =
      specExternalEntries c issues m ns := by
  intro ns
  induction ns with
  | nil => rfl
  | cons x ns ih =>
    simp only [specExternalEntries]
    cases hl : lookupIssue issues x with
    | none =>
      have hpx : filterIssueType issues m x = false := by
        unfold filterIssueType
        rw [hl]
      rw [List.filter_cons_of_neg (by simp [hpx]), ih]
      simp [hl]
    | some iss =>
      cases hc : iss.labels.contains m with
      | true =>
        have hpx : filterIssueType issues m x = true := by
          unfold filterIssueType
          rw [hl]
          exact hc
        rw [List.filter_cons_of_pos hpx, List.map_cons, ih]
        have hmem : m ∈ iss.labels := by simpa using hc
        simp [hl, hmem]
      | false =>
        have hpx : filterIssueType issues m x = false := by
          unfold filterIssueType
          rw [hl]
          exact hc
        rw [List.filter_cons_of_neg (by simp [hpx]), ih]
        have hmem : m ∉ iss.labels := by simpa using hc
        simp [hl, hmem]

/-! ## Claim C6 -/

/-- C6: for every commit list, issue mapping and external match text, the
external pass emits exactly one group entry per issue number in each
commit's issue list whose fetched Issue record exists in the mapping and
carries the match text among its labels -- each entry a copy of the commit
annotated with that number, in commit order then issue-list order (equality
with the spec-side definition); furthermore every emitted entry's issue
number is present in the mapping with a record whose labels contain the
match text, so an unmapped issue number never contributes an entry (and no
error is raised: the pass is a total function). -/
theorem filterExternalIssues_spec (commits : List Commit)
    (issues : List (String × Issue)) (m : String) :
    filterExternalIssues commits issues m = specExternalPass commits issues m ∧
    (∀ e ∈ filterExternalIssues commits issues m,
      ∃ n iss, e.issueNumber = some n ∧ lookupIssue issues n = some iss ∧
        iss.labels.contains m = true) := by
  constructor
  · induction commits with
    | nil => rfl
    | cons c rest ih =>
      show ((c :: rest).map _).flatten = _
      rw [List.map_cons, List.flatten_cons]
      simp only [specExternalPass]
      rw [specExternalEntries_eq]
      have ih2 : (rest.map _).flatten = specExternalPass rest issues m := ih
      rw [ih2]
  · intro e he
    simp only [filterExternalIssues, List.mem_flatten, List.mem_map] at he
    obtain ⟨L, ⟨c, _, rfl⟩, heL⟩ := he
    obtain ⟨ci, hci, rfl⟩ := List.mem_map.mp heL
    obtain ⟨-, hpred⟩ := List.mem_filter.mp hci
    have hpred2 : (match lookupIssue issues ci with
        | some iss => iss.labels.contains m
        | none => false) = true := hpred
    cases hl : lookupIssue issues ci with
    | none =>
      rw [hl] at hpred2
      exact absurd hpred2 (by simp)
    | some iss =>
      refine ⟨ci, iss, rfl, hl, ?_⟩
      rw [hl] at hpred2
      exact hpred2

/-- C6 witness: the spec theorem applied at a concrete input -- one commit
whose issue list holds a mapped number twice (labelled with the match
text), an unmapped number, and a mapped number without the label; exactly
the two copies for the doubly-listed qualifying number are emitted. -/
theorem filterExternalIssues_spec_witness :
    filterExternalIssues
        [⟨"abcdef123", "2018-01-02T19:32:20+01:00",
          "Fix #10 Fix #10 Fix #77 Fix #8 x", some ["10", "77", "10", "8"]⟩]
        [("10", ⟨"t10", ["Bug", "UI"]⟩), ("8", ⟨"t8", ["Feature"]⟩)] "Bug" =
      specExternalPass
        [⟨"abcdef123", "2018-01-02T19:32:20+01:00",
          "Fix #10 Fix #10 Fix #77 Fix #8 x", some ["10", "77", "10", "8"]⟩]
        [("10", ⟨"t10", ["Bug", "UI"]⟩), ("8", ⟨"t8", ["Feature"]⟩)] "Bug" ∧
    (∃ n iss,
      (⟨⟨"abcdef123", "2018-01-02T19:32:20+01:00",
          "Fix #10 Fix #10 Fix #77 Fix #8 x", some ["10", "77", "10", "8"]⟩,
        some "10"⟩ : GEntry).issueNumber = some n ∧
      lookupIssue
        [("10", ⟨"t10", ["Bug", "UI"]⟩), ("8", ⟨"t8", ["Feature"]⟩)] n =
          some iss ∧
      iss.labels.contains "Bug" = true) := by
  refine ⟨(filterExternalIssues_spec _ _ _).1, ?_⟩
  exact (filterExternalIssues_spec
    [⟨"abcdef123", "2018-01-02T19:32:20+01:00",
      "Fix #10 Fix #10 Fix #77 Fix #8 x", some ["10", "77", "10", "8"]⟩]
    [("10", ⟨"t10", ["Bug", "UI"]⟩), ("8", ⟨"t8", ["Feature"]⟩)]
    "Bug").2 _ (by decide)

/-! ## Claim C8 -/

/-- C8: `read` raises a fatal error exactly when the parsed, flattened tag
list has fewer than 2 entries or the tag window selection returns nothing;
in every other case it returns the commits parsed from the history text
between the two selected tags together with those tags as the window
bounds. -/
theorem read_spec (tagText : String) (commitText : String → String → String)
    (tagTest : String → Bool) (tag : Option String) :
    ((∃ e, read tagText commitText tagTest tag = Except.error e) ↔
      ((parseOutputList (tagParser tagTest) tagText).length < 2 ∨
        getTagsBetween (parseOutputList (tagParser tagTest) tagText) tag =
          none)) ∧
    (∀ ft tt,
      getTagsBetween (parseOutputList (tagParser tagTest) tagText) tag =
        some (ft, tt) →
      2 ≤ (parseOutputList (tagParser tagTest) tagText).length →
      read tagText commitText tagTest tag =
        Except.ok
          { commits := parseOutputOpt commitParser
              (commitText ft.name tt.name),
            fromTag := ft, toTag := tt }) := by
  constructor
  · by_cases h1 : (parseOutputList (tagParser tagTest) tagText).length ≤ 1
    · constructor
      · intro _
        left
        omega
      · intro _
        refine ⟨"Failed to get tags with tagRegex", ?_⟩
        simp only [read]
        rw [if_pos h1]
    · cases hg : getTagsBetween (parseOutputList (tagParser tagTest) tagText)
          tag with
      | none =>
        constructor
        · intro _
          right
          rfl
        · intro _
          refine ⟨"Failed to get tags", ?_⟩
          simp only [read]
          rw [if_neg h1, hg]
      | some pr =>
        obtain ⟨ft, tt⟩ := pr
        have hread : read tagText commitText tagTest tag =
            Except.ok
              { commits := parseOutputOpt commitParser
                  (commitText ft.name tt.name),
                fromTag := ft, toTag := tt } := by
          simp only [read]
          rw [if_neg h1, hg]
        constructor
        · rintro ⟨e, he⟩
          rw [hread] at he
          exact absurd he (by simp)
        · rintro (h | h)
          · omega
          · exact absurd h (by simp)
  · intro ft tt hg hlen
    simp only [read]
    rw [if_neg (by omega), hg]

/-- C8 witness: the spec theorem applied at a concrete backend -- two tag
lines, a history function building one well-formed commit line from the two
selected tag names; the fatal conditions are absent and the parsed commit
comes back with the window bounds. -/
theorem read_spec_witness :
    read
      "2018-09-05T13:55:53+02:00 tag: v2\n2018-08-07T10:28:33+02:00 tag: v1"
      (fun a b =>
        String.mk
          ("abcdef123 2018-09-01T00:00:00+00:00 Fix ".toList ++
            a.toList ++ b.toList))
      (fun s => containsStr "v" s) none =
    Except.ok
      ⟨[⟨"abcdef123", "2018-09-01T00:00:00+00:00", "Fix v2v1", none⟩],
        ⟨"v2", "2018-09-05T13:55:53+02:00"⟩,
        ⟨"v1", "2018-08-07T10:28:33+02:00"⟩⟩ := by
  have h := (read_spec
    "2018-09-05T13:55:53+02:00 tag: v2\n2018-08-07T10:28:33+02:00 tag: v1"
    (fun a b =>
      String.mk
        ("abcdef123 2018-09-01T00:00:00+00:00 Fix ".toList ++
          a.toList ++ b.toList))
    (fun s => containsStr "v" s) none).2
    ⟨"v2", "2018-09-05T13:55:53+02:00"⟩
    ⟨"v1", "2018-08-07T10:28:33+02:00"⟩
    (by decide) (by decide)
  rw [h]
  exact congrArg Except.ok (by decide)

/-! ## Claim C1 -/

/-- C1 (code bug): the local pass of `retrieve` filters the raw input
commits and reads their `issues` field, which the pipeline's own
`commitParser` never sets -- instead of the re-derived `commitsWithIssues`
used by the external pass.  Consequently a commit whose message plainly
contains an issue reference (its re-derived issue list is `["10"]`, not
empty) is still placed into a local rule's group, contradicting the claim
that a commit enters a local group only when it has zero re-derived linked
issues.  Evaluated at the failing input: one commit named
`Hotfix - Fix #10 crash` with no `issues` field, no external rules, and the
single local rule matching the text `Hotfix - `. -/
theorem retrieve_local_pass_bug :
    retrieveGroups
        [⟨"abcdef123", "2018-01-02T19:32:20+01:00",
          "Hotfix - Fix #10 crash", none⟩] [] []
        [⟨LabelMatch.lit "Hotfix - ", "Others"⟩] =
      [⟨"Others",
        [⟨⟨"abcdef123", "2018-01-02T19:32:20+01:00", "Fix #10 crash", none⟩,
          none⟩]⟩] ∧
    matchIssues "Hotfix - Fix #10 crash" = ["10"] := by
  decide

end Releaser
